import Mathlib

/-!
Verification of `include/xarray/utils.hpp` (namespace `qs`).

Shallow embedding of the generic utilities of `utils.hpp` and proofs of the
properties its specification states.

Embedding conventions:

* A heterogeneous pack `Args...` or `std::tuple<T...>` is a `List α`, where
  `α` is the closed sum of the element types occurring in the sequence; a
  callable that is valid for every element type is a function on `α`.
  The length `sizeof...(T)` is `List.length`.
* A callable may have side effects.  They are made explicit by passing a
  state `σ`: a visitor is `α → σ → α × σ` when it receives a mutable
  reference (it returns the new content of the slot), `α → σ → R × σ` when
  its result is used, and a combinator is `R → α → σ → R × σ`.
* Template instantiation is part of the function: an instantiation that the
  compiler rejects, and a run-time step without defined behaviour, are
  results of type `Outcome`.
* `size_t` indices are `Nat`.
* An element stands for its value, and distinct positions of a pack for
  distinct objects.  The value category of a callable is carried where the
  source does not forward it on every path: `accumulate` and `apply` take the
  category `fcat` of the argument bound to their parameter `F&&`.  The value
  category of an element is followed in the section on the value category of
  `argument`, where an argument is an expression with its category and the
  identity of the object it designates, and `getter` and `argument` are
  followed at the level of their parameter and return types.
-/

set_option autoImplicit false

namespace qs

/-- Result of instantiating and running a template function. -/
inductive Outcome (β : Type) where
  /-- The call compiles and returns `b`. -/
  | value (b : β)
  /-- A `static_assert` of the instantiated body fails. -/
  | static_assert_failed
  /-- No overload or specialisation accepts the template and call arguments. -/
  | no_match
  /-- The chain of template instantiations never reaches a base case. -/
  | diverges
  /-- A declaration of the instantiated body is ill-formed. -/
  | ill_formed
  /-- The program compiles, but the executed step has no defined behaviour. -/
  | undefined
  deriving DecidableEq, Repr

namespace Outcome

/-- True when the call compiles and returns a value. -/
def isValue {β : Type} : Outcome β → Bool
  | value _ => true
  | _ => false

/-- True when the compiler rejects the instantiation. -/
def isRejected {β : Type} : Outcome β → Bool
  | static_assert_failed => true
  | no_match => true
  | diverges => true
  | ill_formed => true
  | _ => false

/-- Continues with `g` on the returned value; every other outcome is kept. -/
def map {β γ : Type} (g : β → γ) : Outcome β → Outcome γ
  | value b => value (g b)
  | static_assert_failed => static_assert_failed
  | no_match => no_match
  | diverges => diverges
  | ill_formed => ill_formed
  | undefined => undefined

/-- Continues with the call `g` on the returned value; every other outcome is
kept. -/
def bind {β γ : Type} (o : Outcome β) (g : β → Outcome γ) : Outcome γ :=
  match o with
  | value b => g b
  | static_assert_failed => static_assert_failed
  | no_match => no_match
  | diverges => diverges
  | ill_formed => ill_formed
  | undefined => undefined

end Outcome

/-! ## Value categories -/

/-- Value category of an expression. -/
inductive Category where
  | lvalue
  | xvalue
  | prvalue
  deriving DecidableEq, Repr

/-- A type built on an object type `T`: `T&`, `T&&` or `T` itself. -/
inductive TypeForm where
  | lvalue_ref
  | rvalue_ref
  | object
  deriving DecidableEq, Repr

/-- An expression: its value category, the identity of the caller's object it
comes from, and the number of copy or move constructions between that object
and the one it designates (`0`: it designates that very object). -/
structure Operand where
  category : Category
  object : Nat
  copies : Nat
  deriving DecidableEq, Repr

/-- Language rule: the template argument deduced for `Arg` from a parameter
`Arg&& arg`, `T&` for an lvalue argument and `T` for an rvalue. -/
def deduce : Category → TypeForm
  | Category.lvalue => TypeForm.lvalue_ref
  | Category.xvalue => TypeForm.object
  | Category.prvalue => TypeForm.object

/-- Language rule: the type `Arg&&` after reference collapsing. -/
def collapse : TypeForm → TypeForm
  | TypeForm.lvalue_ref => TypeForm.lvalue_ref
  | TypeForm.rvalue_ref => TypeForm.rvalue_ref
  | TypeForm.object => TypeForm.rvalue_ref

/-- Language rule: the value category of a call or cast expression whose type
is of the given form. -/
def call_category : TypeForm → Category
  | TypeForm.lvalue_ref => Category.lvalue
  | TypeForm.rvalue_ref => Category.xvalue
  | TypeForm.object => Category.prvalue

/-- Language rule: the return type `decltype(auto)` deduces from a returned
call expression of the given category. -/
def decltype_auto : Category → TypeForm
  | Category.lvalue => TypeForm.lvalue_ref
  | Category.xvalue => TypeForm.rvalue_ref
  | Category.prvalue => TypeForm.object

/-- Language rule: a parameter `Arg&& arg` bound to an argument is a name for
the argument's object, and a name is an lvalue. -/
def bind_parameter (a : Operand) : Operand :=
  ⟨Category.lvalue, a.object, a.copies⟩

/-- Library `std::forward<Arg>(arg)`: `static_cast<Arg&&>(arg)`, the same
object under the category of the type `Arg&&`. -/
def forward (Arg : TypeForm) (arg : Operand) : Operand :=
  ⟨call_category (collapse Arg), arg.object, arg.copies⟩

/-- Language rule: the call expression of a function of return type `ret`
that returns `e`.  A reference designates the object of `e`; a result by value
is a new object, constructed from `e` unless `e` is itself a prvalue. -/
def return_as (ret : TypeForm) (e : Operand) : Operand :=
  match ret with
  | TypeForm.object =>
    ⟨Category.prvalue, e.object, if e.category = Category.prvalue then e.copies else e.copies + 1⟩
  | TypeForm.lvalue_ref => ⟨Category.lvalue, e.object, e.copies⟩
  | TypeForm.rvalue_ref => ⟨Category.xvalue, e.object, e.copies⟩

/-- The argument `std::forward<Arg>(arg)` of a call, for the parameter
`Arg&& arg` that was bound to `a`. -/
def forwarded (a : Operand) : Operand :=
  forward (deduce a.category) (bind_parameter a)

/-- Language rule: whether a parameter of the given type can be initialised
from an argument of the given category.  A `T&` takes an lvalue, a `T&&` takes
an rvalue, a `T` takes both. -/
def binds : TypeForm → Category → Bool
  | TypeForm.lvalue_ref, Category.lvalue => true
  | TypeForm.lvalue_ref, _ => false
  | TypeForm.rvalue_ref, Category.lvalue => false
  | TypeForm.rvalue_ref, _ => true
  | TypeForm.object, _ => true

variable {α R σ : Type}

/-! ## `argument` (utils.hpp 189-217) -/

namespace detail

/-- Source `getter<I>::get(arg, args...)`: the primary template drops `arg` and
continues with `getter<I - 1>`, the specialisation `getter<0>` returns `arg`.
Both `get` templates need at least one argument. -/
def getter : Nat → List α → Outcome α
  | 0, arg :: _ => Outcome.value arg
  | I + 1, _ :: args => getter I args
  | _, [] => Outcome.no_match

end detail

/-- Source `argument<I>(args...)`: the `static_assert(I < sizeof...(Args))`, then
`detail::getter<I>::get(args...)`. -/
def argument (I : Nat) (args : List α) : Outcome α :=
  if I < args.length then detail.getter I args else Outcome.static_assert_failed

/-! ## `apply` (utils.hpp 223-245) -/

namespace detail

/-- Source `apply_one<R, F, I, S...>(func, s...)`: `func(argument<I>(s...))`. -/
def apply_one (I : Nat) (func : α → σ → R × σ) (s : List α) (st : σ) : Outcome (R × σ) :=
  (argument I s).map fun a => func a st

/-- The table `arr[] = { &apply_one<R, F, I, S...>... }` of `detail::apply`,
one entry per element of the index sequence. -/
def apply_table (ints : List Nat) : List ((α → σ → R × σ) → List α → σ → Outcome (R × σ)) :=
  ints.map fun I => apply_one I

/-- Source `detail::apply<R>(index, func, std::index_sequence<I...>, s...)`:
`arr[index](func, s...)`, where `F` is deduced from the argument bound to
`F&& func`, of category `fcat`.  An array of no elements is ill-formed.  The
elements of `arr` have the type `FT* = R (*)(F, S&&...)` and are initialised
with `&apply_one<R, F, I, S...>`, of type `R (*)(F&&, S&&...)`: no function
matches unless `F&&` is `F`.  The array access is unchecked; outside the
array it has no defined behaviour. -/
def apply (fcat : Category) (index : Nat) (func : α → σ → R × σ) (ints : List Nat)
    (s : List α) (st : σ) : Outcome (R × σ) :=
  if ints = [] then Outcome.ill_formed
  else if collapse (deduce fcat) = deduce fcat then
    match (apply_table ints)[index]? with
    | some thunk => thunk func s st
    | none => Outcome.undefined
  else Outcome.no_match

end detail

/-- Source `apply<R>(index, func, s...)`: `detail::apply` with
`std::forward<F>(func)` and `std::make_index_sequence<sizeof...(S)>`, where
`F` is deduced from the argument bound to `F&& func`, of category `fcat`. -/
def apply (fcat : Category) (index : Nat) (func : α → σ → R × σ) (s : List α) (st : σ) :
    Outcome (R × σ) :=
  detail.apply (call_category (collapse (deduce fcat))) index func (List.range s.length) s st

/-! ## `for_each` on a tuple (utils.hpp 36-57) -/

namespace detail

/-- Source `for_each_impl<I, F, T...>(f, t)`.  The overload enabled for
`I == sizeof...(T)` does nothing; the one enabled for `I < sizeof...(T)` runs
`f(std::get<I>(t))`, where `std::get<I>(t)` is a mutable reference to slot
`I`, and continues with `I + 1`.  No overload is enabled for
`I > sizeof...(T)`. -/
def for_each_impl (I : Nat) (f : α → σ → α × σ) (t : List α) (st : σ) : Outcome (List α × σ) :=
  if I = t.length then Outcome.value (t, st)
  else if h : I < t.length then
    let r := f (t.get ⟨I, h⟩) st
    for_each_impl (I + 1) f (t.set I r.1) r.2
  else Outcome.no_match
termination_by t.length - I
decreasing_by simp only [List.length_set]; omega

end detail

/-- Source `for_each(f, t)`: `detail::for_each_impl<0, F, T...>(f, t)`. -/
def for_each (f : α → σ → α × σ) (t : List α) (st : σ) : Outcome (List α × σ) :=
  detail.for_each_impl 0 f t st

/-! ## `for_each_arg` (utils.hpp 64-97) -/

namespace detail

/-- The constructor `invoker_base<I>(f, t)`: `f(std::forward<T>(t))`. -/
def invoker_base (_I : Nat) (f : α → σ → α × σ) (t : α) (st : σ) : α × σ :=
  f t st

/-- The constructor `invoker<Ints...>(f, args...)`.  Its body is empty; the
base classes `invoker_base<Ints>...` are initialised in the order of the
base-specifier list, each from `(f, args)` of the same position in the pack
expansion.  The expansion needs packs of the same length. -/
def invoker : List Nat → (α → σ → α × σ) → List α → σ → Outcome (List α × σ)
  | [], _, [], st => Outcome.value ([], st)
  | I :: ints, f, arg :: args, st =>
    let r := invoker_base I f arg st
    (invoker ints f args r.2).map fun rest => (r.1 :: rest.1, rest.2)
  | [], _, _ :: _, _ => Outcome.no_match
  | _ :: _, _, [], _ => Outcome.no_match

/-- Source `for_each_arg_impl(f, std::index_sequence<Ints...>, args...)`: constructs
an `invoker<Ints...>` from `(f, args...)`. -/
def for_each_arg_impl (f : α → σ → α × σ) (ints : List Nat) (args : List α) (st : σ) :
    Outcome (List α × σ) :=
  invoker ints f args st

end detail

/-- Source `for_each_arg(f, args...)`: `detail::for_each_arg_impl` with
`std::make_index_sequence<sizeof...(Args)>`. -/
def for_each_arg (f : α → σ → α × σ) (args : List α) (st : σ) : Outcome (List α × σ) :=
  detail.for_each_arg_impl f (List.range args.length) args st

/-! ## `accumulate_arg` (utils.hpp 104-137) -/

namespace detail

/-- The member `apply` of `accumulator<I, N>`.  The specialisation
`accumulator<N, N>` takes exactly one element and returns `f(r, t)`.  The
primary template takes at least one element, computes `res = f(r, t)` and
passes `res` with the remaining elements to its base `accumulator<I + 1, N>`.
For `I > N` the chain of bases `accumulator<I + 1, N>`, `accumulator<I + 2, N>`,
... never meets the specialisation, so the class cannot be instantiated. -/
def accumulator.apply (I N : Nat) (f : R → α → σ → R × σ) (r : R) (args : List α) (st : σ) :
    Outcome (R × σ) :=
  if I = N then
    match args with
    | [t] => Outcome.value (f r t st)
    | _ => Outcome.no_match
  else if I < N then
    match args with
    | t :: rest =>
      let res := f r t st
      accumulator.apply (I + 1) N f res.1 rest res.2
    | [] => Outcome.no_match
  else Outcome.diverges
termination_by N - I

end detail

/-- Source `accumulate_arg(f, init, args...)`: `ac.apply(f, init, args...)` with
`ac` of type `detail::accumulator<1, sizeof...(Args)>`. -/
def accumulate_arg (f : R → α → σ → R × σ) (init : R) (args : List α) (st : σ) :
    Outcome (R × σ) :=
  detail.accumulator.apply 1 args.length f init args st

/-! ## `accumulate` on a tuple (utils.hpp 144-167) -/

namespace detail

/-- Source `accumulate_impl<I, F, R, T...>(f, init, t)`.  The overload enabled for
`I == sizeof...(T)` returns `init`; the one enabled for `I < sizeof...(T)`
computes `res = f(init, std::get<I>(t))` and continues with `I + 1` and
`res`.  No overload is enabled for `I > sizeof...(T)`. -/
def accumulate_impl (I : Nat) (f : R → α → σ → R × σ) (init : R) (t : List α) (st : σ) :
    Outcome (R × σ) :=
  if I = t.length then Outcome.value (init, st)
  else if h : I < t.length then
    let res := f init (t.get ⟨I, h⟩) st
    accumulate_impl (I + 1) f res.1 t res.2
  else Outcome.no_match
termination_by t.length - I

end detail

/-- Source `accumulate(f, init, t)`: `detail::accumulate_impl<0, F, R, T...>(f, init, t)`,
where `F` is deduced from the argument bound to `F&& f`, of category `fcat`.
The call passes the name `f`, an lvalue, to the parameter `F&& f` of
`accumulate_impl`, whose `F` is given explicitly: no overload is viable when
`F&&` cannot take an lvalue. -/
def accumulate (fcat : Category) (f : R → α → σ → R × σ) (init : R) (t : List α) (st : σ) :
    Outcome (R × σ) :=
  if binds (collapse (deduce fcat)) Category.lvalue then detail.accumulate_impl 0 f init t st
  else Outcome.no_match

/-! ## `or_` (utils.hpp 170-183) -/

/-- Source `or_<T...>::value`, each fact given by its `T::value`.  The primary
template is declared without a definition, so `or_<>` has no `value`;
`or_<T>` is `T::value`; `or_<T, Ts...>` is `T::value || or_<Ts...>::value`. -/
def or_ : List Bool → Outcome Bool
  | [] => Outcome.no_match
  | [T] => Outcome.value T
  | T :: Ts => (or_ Ts).map fun v => T || v

/-! ## Values and visitors of the specification scenarios -/

/-- Modelled from the spec: the element types of the concrete scenarios, an
integer, a string, and a double written as the decimal
`mantissa / 10 ^ scale` (so `2.5` is `dbl 25 1` and `3.0` is `dbl 30 1`). -/
inductive Elem where
  | int (n : Int)
  | str (s : String)
  | dbl (mantissa : Int) (scale : Nat)
  deriving DecidableEq, Repr

/-- Removes the trailing zeros of a decimal fraction of `scale` digits. -/
def strip_zeros : Nat → Nat → Nat × Nat
  | m, 0 => (m, 0)
  | m, k + 1 => if m % 10 = 0 then strip_zeros (m / 10) k else (m, k + 1)

/-- Modelled from the spec: the string form of an element, the one an output
stream prints (no trailing zeros and no decimal point for a whole double). -/
def stringify : Elem → String
  | Elem.int n => toString n
  | Elem.str s => s
  | Elem.dbl m k =>
    let d := strip_zeros m.natAbs k
    let frac := toString (d.1 % 10 ^ d.2)
    (if m < 0 then "-" else "") ++ toString (d.1 / 10 ^ d.2) ++
      (if d.2 = 0 then "" else "." ++ String.mk (List.replicate (d.2 - frac.length) '0') ++ frac)

/-- Modelled from the spec: the visitor "append string form to a log". -/
def log_visitor (x : Elem) (log : List String) : Elem × List String :=
  (x, log ++ [stringify x])

/-- Modelled from the spec: the visitor `stringify` of the `apply` scenario,
without side effects. -/
def stringify_visitor (x : Elem) (st : Unit) : String × Unit :=
  (stringify x, st)

/-- Modelled from the spec: the combinator "sum", without side effects. -/
def sum_combinator (r : Int) (x : Int) (st : Unit) : Int × Unit :=
  (r + x, st)

/-- A visitor instrumented to record, in order, the argument of each of its
invocations. -/
def traced (f : α → σ → α × σ) (x : α) (st : σ × List α) : α × (σ × List α) :=
  ((f x st.1).1, ((f x st.1).2, st.2 ++ [x]))

/-- A combinator without side effects, as a combinator on any state. -/
def pure_combinator (g : R → α → R) (r : R) (x : α) (st : σ) : R × σ :=
  (g r x, st)

/-- A combinator instrumented to record, in order, the accumulator and the
element each of its invocations receives. -/
def traced_combinator (f : R → α → σ → R × σ) (r : R) (x : α) (st : σ × List (R × α)) :
    R × (σ × List (R × α)) :=
  ((f r x st.1).1, ((f r x st.1).2, st.2 ++ [(r, x)]))

/-- A visitor of `apply` instrumented to record, in order, the argument of
each of its invocations. -/
def traced_visitor (func : α → σ → R × σ) (x : α) (st : σ × List α) : R × (σ × List α) :=
  ((func x st.1).1, ((func x st.1).2, st.2 ++ [x]))

/-- The visitor that overwrites the slot it is given, `x = g(x)`, and has no
other effect. -/
def overwrite (g : α → α) (x : α) (st : σ) : α × σ :=
  (g x, st)

/-! ## Depth of the recursions -/

namespace detail

/-- Source `for_each_impl<I, F, T...>(f, t)` run with at most `depth` nested
calls of `for_each_impl<I + 1, F, T...>`; `none` when more are needed. -/
def for_each_impl_within (f : α → σ → α × σ) :
    Nat → Nat → List α → σ → Option (Outcome (List α × σ))
  | 0, I, t, st =>
    if I = t.length then some (Outcome.value (t, st))
    else if I < t.length then none
    else some Outcome.no_match
  | depth + 1, I, t, st =>
    if I = t.length then some (Outcome.value (t, st))
    else if h : I < t.length then
      let r := f (t.get ⟨I, h⟩) st
      for_each_impl_within f depth (I + 1) (t.set I r.1) r.2
    else some Outcome.no_match

/-- Source `accumulate_impl<I, F, R, T...>(f, init, t)` run with at most `depth`
nested calls of `accumulate_impl<I + 1, F, R, T...>`; `none` when more are
needed. -/
def accumulate_impl_within (f : R → α → σ → R × σ) (t : List α) :
    Nat → Nat → R → σ → Option (Outcome (R × σ))
  | 0, I, init, st =>
    if I = t.length then some (Outcome.value (init, st))
    else if I < t.length then none
    else some Outcome.no_match
  | depth + 1, I, init, st =>
    if I = t.length then some (Outcome.value (init, st))
    else if h : I < t.length then
      let res := f init (t.get ⟨I, h⟩) st
      accumulate_impl_within f t depth (I + 1) res.1 res.2
    else some Outcome.no_match

/-- Source `getter<I>::get(arg, args...)` run with at most `depth` nested calls
of `getter<I - 1>::get`; `none` when more are needed. -/
def getter_within : Nat → Nat → List α → Option (Outcome α)
  | _, 0, arg :: _ => some (Outcome.value arg)
  | 0, _ + 1, _ :: _ => none
  | depth + 1, I + 1, _ :: args => getter_within depth I args
  | _, _, [] => some Outcome.no_match

/-- The member `apply` of `accumulator<I, N>` run with at most `depth` nested
calls of `base_type::apply`; `none` when more are needed. -/
def accumulator.apply_within (N : Nat) (f : R → α → σ → R × σ) :
    Nat → Nat → R → List α → σ → Option (Outcome (R × σ))
  | 0, I, r, args, st =>
    if I = N then
      match args with
      | [t] => some (Outcome.value (f r t st))
      | _ => some Outcome.no_match
    else if I < N then
      match args with
      | _ :: _ => none
      | [] => some Outcome.no_match
    else some Outcome.diverges
  | depth + 1, I, r, args, st =>
    if I = N then
      match args with
      | [t] => some (Outcome.value (f r t st))
      | _ => some Outcome.no_match
    else if I < N then
      match args with
      | t :: rest =>
        let res := f r t st
        accumulator.apply_within N f depth (I + 1) res.1 rest res.2
      | [] => some Outcome.no_match
    else some Outcome.diverges

end detail

/-! ## Value category of `argument` (utils.hpp 189-217) -/

namespace detail

/-- Source `getter<I>::get(arg, args...)` at the level of types.  The
specialisation `getter<0>` has return type `Arg&&` and returns
`std::forward<Arg>(arg)`; the primary template has return type
`decltype(auto)` and returns the call
`getter<I - 1>::get(std::forward<Args>(args)...)`. -/
def getter_ref : Nat → List Operand → Outcome Operand
  | 0, arg :: _ =>
    Outcome.value (return_as (collapse (deduce arg.category)) (forwarded arg))
  | I + 1, _ :: args =>
    (getter_ref I (args.map forwarded)).map fun e => return_as (decltype_auto e.category) e
  | _, [] => Outcome.no_match

end detail

/-- Source `argument<I>(args...)` at the level of types: the `static_assert`,
then the return type `decltype(auto)` for the returned call
`detail::getter<I>::get(std::forward<Args>(args)...)`. -/
def argument_ref (I : Nat) (args : List Operand) : Outcome Operand :=
  if I < args.length then
    (detail.getter_ref I (args.map forwarded)).map fun e => return_as (decltype_auto e.category) e
  else Outcome.static_assert_failed

/-! ## Reference semantics -/

/-- The visit the specification describes: the visitor is invoked on each
element from left to right, once, and each slot receives what the visitor
left in it. -/
def visit_in_order (f : α → σ → α × σ) : List α → σ → List α × σ
  | [], st => ([], st)
  | e :: es, st => ((f e st).1 :: (visit_in_order f es (f e st).2).1,
      (visit_in_order f es (f e st).2).2)

/-- The left fold the specification describes: `r0 = init`,
`r(k+1) = f(rk, ek)`, with the side effects of `f` in the same order. -/
def fold_left (f : R → α → σ → R × σ) (init : R) (t : List α) (st : σ) : R × σ :=
  t.foldl (fun acc e => f acc.1 e acc.2) (init, st)

/-- The invocations of the combinator the specification describes: the first
receives `init` and `e0`, each next one the accumulator its predecessor
produced and the next element. -/
def fold_calls (f : R → α → σ → R × σ) : R → List α → σ → List (R × α)
  | _, [], _ => []
  | r, e :: es, st => (r, e) :: fold_calls f (f r e st).1 es (f r e st).2

/-! ## Auxiliary lemmas -/

namespace detail

theorem getter_of_lt : ∀ (I : Nat) (args : List α) (h : I < args.length),
    getter I args = Outcome.value (args.get ⟨I, h⟩)
  | 0, _ :: _, _ => rfl
  | I + 1, _ :: args, h => by
    have h' : I < args.length := by simpa using h
    simpa [getter] using getter_of_lt I args h'

theorem getter_of_le : ∀ (I : Nat) (args : List α), args.length ≤ I →
    getter I args = Outcome.no_match
  | 0, [], _ => rfl
  | _ + 1, [], _ => rfl
  | 0, _ :: _, h => by simp at h
  | I + 1, _ :: args, h => by
    have h' : args.length ≤ I := by simpa using h
    simpa [getter] using getter_of_le I args h'

theorem getter_drop : ∀ (I k : Nat) (args : List α), k ≤ I →
    getter (I - k) (args.drop k) = getter I args
  | _, 0, _, _ => by simp
  | 0, _ + 1, _, h => by omega
  | I + 1, k + 1, [], _ => by
    simp only [List.drop_nil]
    rw [getter_of_le _ [] (by simp), getter_of_le _ [] (by simp)]
  | I + 1, k + 1, _ :: args, h => by
    have h' : k ≤ I := by omega
    simpa [getter] using getter_drop I k args h'

theorem apply_table_length (ints : List Nat) :
    (apply_table ints : List ((α → σ → R × σ) → List α → σ → Outcome (R × σ))).length
      = ints.length := by
  simp [apply_table]

theorem apply_table_range_lookup (N index : Nat) (h : index < N) :
    (apply_table (List.range N) :
        List ((α → σ → R × σ) → List α → σ → Outcome (R × σ)))[index]?
      = some (apply_one index) := by
  simp [apply_table, List.getElem?_range, h]

theorem apply_table_lookup_none (ints : List Nat) (index : Nat) (h : ints.length ≤ index) :
    (apply_table ints :
        List ((α → σ → R × σ) → List α → σ → Outcome (R × σ)))[index]? = none := by
  simp [apply_table, h]

end detail

theorem argument_of_lt (I : Nat) (args : List α) (h : I < args.length) :
    argument I args = Outcome.value (args.get ⟨I, h⟩) := by
  simp only [argument, h, if_true]
  exact detail.getter_of_lt I args h

theorem argument_of_le (I : Nat) (args : List α) (h : args.length ≤ I) :
    argument I args = Outcome.static_assert_failed := by
  simp [argument, Nat.not_lt.mpr h]

theorem detail.apply_one_of_lt (I : Nat) (func : α → σ → R × σ) (s : List α) (st : σ)
    (h : I < s.length) :
    detail.apply_one I func s st = Outcome.value (func (s.get ⟨I, h⟩) st) := by
  simp [detail.apply_one, argument_of_lt I s h, Outcome.map]

theorem detail.apply_table_matches (index : Nat) (func : α → σ → R × σ) (ints : List Nat)
    (s : List α) (st : σ) (h : ints ≠ []) :
    detail.apply Category.lvalue index func ints s st
      = match (detail.apply_table ints)[index]? with
        | some thunk => thunk func s st
        | none => Outcome.undefined := by
  simp [detail.apply, h, collapse, deduce]

theorem detail.apply_table_mismatch (fcat : Category) (index : Nat) (func : α → σ → R × σ)
    (ints : List Nat) (s : List α) (st : σ) (h : ints ≠ []) (hc : fcat ≠ Category.lvalue) :
    detail.apply fcat index func ints s st = Outcome.no_match := by
  cases fcat with
  | lvalue => exact absurd rfl hc
  | xvalue => simp [detail.apply, h, collapse, deduce]
  | prvalue => simp [detail.apply, h, collapse, deduce]

theorem range_ne_nil (s : List α) (h : s ≠ []) : List.range s.length ≠ [] := by
  intro hr
  have hlen := congrArg List.length hr
  simp at hlen
  exact h hlen

theorem apply_of_lt (index : Nat) (func : α → σ → R × σ) (s : List α) (st : σ)
    (h : index < s.length) :
    apply Category.lvalue index func s st = Outcome.value (func (s.get ⟨index, h⟩) st) := by
  have hs : s ≠ [] := by
    intro hnil
    rw [hnil] at h
    exact Nat.not_lt_zero _ h
  simp only [apply, deduce, collapse, call_category]
  rw [detail.apply_table_matches index func _ s st (range_ne_nil s hs),
    detail.apply_table_range_lookup s.length index h]
  exact detail.apply_one_of_lt index func s st h

theorem apply_of_le (index : Nat) (func : α → σ → R × σ) (s : List α) (st : σ)
    (hs : s ≠ []) (h : s.length ≤ index) :
    apply Category.lvalue index func s st = Outcome.undefined := by
  simp only [apply, deduce, collapse, call_category]
  rw [detail.apply_table_matches index func _ s st (range_ne_nil s hs),
    detail.apply_table_lookup_none _ _ (by simpa using h)]

theorem apply_of_temporary (fcat : Category) (index : Nat) (func : α → σ → R × σ)
    (s : List α) (st : σ) (hs : s ≠ []) (hc : fcat ≠ Category.lvalue) :
    apply fcat index func s st = Outcome.no_match := by
  have hf : call_category (collapse (deduce fcat)) ≠ Category.lvalue := by
    cases fcat with
    | lvalue => exact absurd rfl hc
    | xvalue => decide
    | prvalue => decide
  exact detail.apply_table_mismatch _ index func _ s st (range_ne_nil s hs) hf

theorem apply_nil (fcat : Category) (index : Nat) (func : α → σ → R × σ) (st : σ) :
    apply fcat index func ([] : List α) st = Outcome.ill_formed := by
  simp [apply, detail.apply]

/-! ### `for_each` and `for_each_arg` -/

theorem detail.for_each_impl_append (f : α → σ → α × σ) :
    ∀ (todo done : List α) (st : σ),
      detail.for_each_impl done.length f (done ++ todo) st
        = Outcome.value (done ++ (visit_in_order f todo st).1, (visit_in_order f todo st).2)
  | [], done, st => by
    rw [detail.for_each_impl]
    simp [visit_in_order]
  | e :: es, done, st => by
    rw [detail.for_each_impl]
    have hne : ¬ done.length = (done ++ e :: es).length := by simp
    have hlt : done.length < (done ++ e :: es).length := by simp
    simp only [hne, if_false, hlt, dite_true]
    have hget : (done ++ e :: es).get ⟨done.length, hlt⟩ = e := by
      simp [List.getElem_append_right]
    rw [hget]
    have hset : (done ++ e :: es).set done.length (f e st).1
        = (done ++ [(f e st).1]) ++ es := by simp
    have hlen : done.length + 1 = (done ++ [(f e st).1]).length := by simp
    rw [hset, hlen, detail.for_each_impl_append f es (done ++ [(f e st).1]) (f e st).2]
    simp [visit_in_order]

theorem for_each_eq_visit (f : α → σ → α × σ) (t : List α) (st : σ) :
    for_each f t st = Outcome.value (visit_in_order f t st) := by
  have h := detail.for_each_impl_append f t [] st
  simpa [for_each] using h

theorem detail.invoker_eq_visit (f : α → σ → α × σ) :
    ∀ (ints : List Nat) (args : List α) (st : σ), ints.length = args.length →
      detail.invoker ints f args st = Outcome.value (visit_in_order f args st)
  | [], [], _, _ => rfl
  | [], _ :: _, _, h => by simp at h
  | _ :: _, [], _, h => by simp at h
  | I :: ints, arg :: args, st, h => by
    have h' : ints.length = args.length := by simpa using h
    simp [detail.invoker, detail.invoker_base, visit_in_order,
      detail.invoker_eq_visit f ints args _ h', Outcome.map]

theorem for_each_arg_eq_visit (f : α → σ → α × σ) (args : List α) (st : σ) :
    for_each_arg f args st = Outcome.value (visit_in_order f args st) := by
  simp only [for_each_arg, detail.for_each_arg_impl]
  exact detail.invoker_eq_visit f _ args st (by simp)

theorem visit_traced (f : α → σ → α × σ) :
    ∀ (t : List α) (st : σ) (log : List α),
      visit_in_order (traced f) t (st, log)
        = ((visit_in_order f t st).1, ((visit_in_order f t st).2, log ++ t))
  | [], _, _ => by simp [visit_in_order]
  | e :: es, st, log => by
    simp [visit_in_order, traced, visit_traced f es]

/-! ### `accumulate` and `accumulate_arg` -/

theorem fold_left_cons (f : R → α → σ → R × σ) (init : R) (e : α) (es : List α) (st : σ) :
    fold_left f init (e :: es) st = fold_left f (f init e st).1 es (f init e st).2 := rfl

theorem fold_left_append (f : R → α → σ → R × σ) (init : R) (s t : List α) (st : σ) :
    fold_left f init (s ++ t) st
      = fold_left f (fold_left f init s st).1 t (fold_left f init s st).2 := by
  simp [fold_left, List.foldl_append]

theorem fold_left_pure (g : R → α → R) (st : σ) :
    ∀ (t : List α) (init : R),
      fold_left (pure_combinator g) init t st = (t.foldl g init, st)
  | [], _ => rfl
  | e :: es, init => by
    rw [fold_left_cons]
    simpa [pure_combinator] using fold_left_pure g st es (g init e)

theorem detail.accumulate_impl_append (f : R → α → σ → R × σ) :
    ∀ (todo done : List α) (init : R) (st : σ),
      detail.accumulate_impl done.length f init (done ++ todo) st
        = Outcome.value (fold_left f init todo st)
  | [], done, init, st => by
    rw [detail.accumulate_impl]
    simp [fold_left]
  | e :: es, done, init, st => by
    rw [detail.accumulate_impl]
    have hne : ¬ done.length = (done ++ e :: es).length := by simp
    have hlt : done.length < (done ++ e :: es).length := by simp
    simp only [hne, if_false, hlt, dite_true]
    have hget : (done ++ e :: es).get ⟨done.length, hlt⟩ = e := by
      simp [List.getElem_append_right]
    rw [hget]
    have hsplit : done ++ e :: es = (done ++ [e]) ++ es := by simp
    have hlen : done.length + 1 = (done ++ [e]).length := by simp
    rw [hsplit, hlen, detail.accumulate_impl_append f es (done ++ [e]) _ _, fold_left_cons]

theorem detail.accumulate_impl_eq_fold (f : R → α → σ → R × σ) (init : R) (t : List α)
    (st : σ) :
    detail.accumulate_impl 0 f init t st = Outcome.value (fold_left f init t st) := by
  have h := detail.accumulate_impl_append f t [] init st
  simpa using h

theorem accumulate_eq_fold (f : R → α → σ → R × σ) (init : R) (t : List α) (st : σ) :
    accumulate Category.lvalue f init t st = Outcome.value (fold_left f init t st) := by
  simp only [accumulate, deduce, collapse, binds, if_true]
  exact detail.accumulate_impl_eq_fold f init t st

theorem accumulate_of_temporary (fcat : Category) (f : R → α → σ → R × σ) (init : R)
    (t : List α) (st : σ) (hc : fcat ≠ Category.lvalue) :
    accumulate fcat f init t st = Outcome.no_match := by
  cases fcat with
  | lvalue => exact absurd rfl hc
  | xvalue => simp [accumulate, deduce, collapse, binds]
  | prvalue => simp [accumulate, deduce, collapse, binds]

theorem detail.accumulator_apply_eq_fold (f : R → α → σ → R × σ) (N : Nat) :
    ∀ (rest : List α) (t : α) (I : Nat) (r : R) (st : σ), I + rest.length = N →
      detail.accumulator.apply I N f r (t :: rest) st
        = Outcome.value (fold_left f r (t :: rest) st)
  | [], t, I, r, st, h => by
    rw [detail.accumulator.apply]
    have hI : I = N := by simpa using h
    simp [hI, fold_left]
  | u :: rest, t, I, r, st, h => by
    unfold detail.accumulator.apply
    have hne : ¬ I = N := by simp at h; omega
    have hlt : I < N := by simp at h; omega
    simp only [hne, if_false, hlt, if_true]
    rw [detail.accumulator_apply_eq_fold f N rest u (I + 1) _ _ (by simp at h; omega),
      fold_left_cons f r t]

theorem accumulate_arg_eq_fold (f : R → α → σ → R × σ) (init : R) (args : List α) (st : σ)
    (h : args ≠ []) :
    accumulate_arg f init args st = Outcome.value (fold_left f init args st) := by
  cases args with
  | nil => exact absurd rfl h
  | cons t rest =>
    exact detail.accumulator_apply_eq_fold f (t :: rest).length rest t 1 init st
      (by simp; omega)

theorem accumulate_arg_nil (f : R → α → σ → R × σ) (init : R) (st : σ) :
    accumulate_arg f init ([] : List α) st = Outcome.diverges := by
  simp only [accumulate_arg]
  rw [detail.accumulator.apply]
  simp

theorem fold_left_last (f : R → α → σ → R × σ) (init : R) (args : List α) (st : σ)
    (h : args ≠ []) :
    fold_left f init args st
      = f (fold_left f init args.dropLast st).1 (args.getLast h)
          (fold_left f init args.dropLast st).2 := by
  conv_lhs => rw [← List.dropLast_append_getLast h]
  rw [fold_left_append]
  rfl

/-! ### `or_` -/

theorem or_cons_cons (T U : Bool) (Ts : List Bool) :
    or_ (T :: U :: Ts) = (or_ (U :: Ts)).map fun v => T || v := rfl

theorem or_eq_any : ∀ (T : Bool) (Ts : List Bool),
    or_ (T :: Ts) = Outcome.value ((T :: Ts).any id)
  | T, [] => by simp [or_]
  | T, U :: Ts => by
    rw [or_cons_cons, or_eq_any U Ts]
    simp [Outcome.map]

theorem or_eq_foldr : ∀ (T : Bool) (Ts : List Bool),
    or_ (T :: Ts) = Outcome.value
      ((T :: Ts).dropLast.foldr (fun x y => x || y) ((T :: Ts).getLast (by simp)))
  | T, [] => by simp [or_]
  | T, U :: Ts => by
    rw [or_cons_cons, or_eq_foldr U Ts]
    simp [Outcome.map]

/-! ## Properties of the specification -/

/-- For an argument list `s` of length `N`, a visitor `func` passed as an
lvalue and a run-time index `index < N`: the table entry selected by `index`
is the thunk `apply_one<index>`, that thunk feeds `argument<index>(s...)`,
which is the element at position `index`, to the visitor, and
`apply(index, func, s...)` returns exactly `func(s_index)`. -/
theorem apply_named_visitor_returns_selected (index : Nat) (func : α → σ → R × σ)
    (s : List α) (st : σ) (h : index < s.length) :
    (detail.apply_table (List.range s.length) :
        List ((α → σ → R × σ) → List α → σ → Outcome (R × σ)))[index]?
        = some (detail.apply_one index)
      ∧ detail.apply_one index func s st = (argument index s).map (fun a => func a st)
      ∧ argument index s = Outcome.value (s.get ⟨index, h⟩)
      ∧ apply Category.lvalue index func s st = Outcome.value (func (s.get ⟨index, h⟩) st) :=
  ⟨detail.apply_table_range_lookup s.length index h, rfl, argument_of_lt index s h,
    apply_of_lt index func s st h⟩

/-- C1, at the input it fails on: `apply(1, stringify, 10, "x", 2.5)` with the
visitor passed as a temporary (a prvalue, or the result of a move) is
rejected, because no `apply_one<R, F, I, S...>` has the element type
`R (*)(F, S&&...)` of the table; the claim gives `"x"`.  The same call with
the visitor passed as an lvalue returns `"x"`, and `"2.5"` for index 2. -/
theorem apply_rejects_temporary_visitor :
    apply Category.prvalue 1 stringify_visitor [Elem.int 10, Elem.str "x", Elem.dbl 25 1] () = Outcome.no_match
      ∧ apply Category.xvalue 1 stringify_visitor [Elem.int 10, Elem.str "x", Elem.dbl 25 1] () = Outcome.no_match
      ∧ apply Category.lvalue 1 stringify_visitor [Elem.int 10, Elem.str "x", Elem.dbl 25 1] () = Outcome.value ("x", ())
      ∧ apply Category.lvalue 2 stringify_visitor [Elem.int 10, Elem.str "x", Elem.dbl 25 1] () = Outcome.value ("2.5", ()) :=
  ⟨apply_of_temporary Category.prvalue 1 stringify_visitor _ () (by decide) (by decide),
    apply_of_temporary Category.xvalue 1 stringify_visitor _ () (by decide) (by decide),
    (apply_of_lt 1 stringify_visitor [Elem.int 10, Elem.str "x", Elem.dbl 25 1] () (by decide)).trans (by decide),
    (apply_of_lt 2 stringify_visitor [Elem.int 10, Elem.str "x", Elem.dbl 25 1] () (by decide)).trans (by decide)⟩

/-- For a tuple `t`, an initial value `init` and a combinator `f` passed as an
lvalue, `accumulate(f, init, t)` is the left fold
`f(...f(f(init, e0), e1)..., e_{N-1})`, the side effects of `f` taking place in
the same order; for a combinator without side effects it is the left fold of
the plain function; for the empty tuple it is `init` unchanged. -/
theorem accumulate_named_is_left_fold (f : R → α → σ → R × σ) (init : R) (t : List α)
    (st : σ) :
    accumulate Category.lvalue f init t st
        = Outcome.value (t.foldl (fun acc e => f acc.1 e acc.2) (init, st))
      ∧ (∀ g : R → α → R,
          accumulate Category.lvalue (pure_combinator g) init t st
            = Outcome.value (t.foldl g init, st))
      ∧ accumulate Category.lvalue f init [] st = Outcome.value (init, st) :=
  ⟨accumulate_eq_fold f init t st,
    fun g => (accumulate_eq_fold (pure_combinator g) init t st).trans
      (congrArg Outcome.value (fold_left_pure g st t init)),
    accumulate_eq_fold f init [] st⟩

/-- C2, at the input it fails on: `accumulate(sum, 0, (1, 2, 3))` with the
combinator passed as a temporary is rejected, because `accumulate` passes the
name `f` where `accumulate_impl<0, F, R, T...>` takes an `F&&`; the claim gives
`6`, and `0` for the empty tuple, which is rejected as well.  The same calls
with the combinator passed as an lvalue return `6` and `0`. -/
theorem accumulate_rejects_temporary_combinator :
    accumulate Category.prvalue sum_combinator 0 [1, 2, 3] () = Outcome.no_match
      ∧ accumulate Category.prvalue sum_combinator 0 [] () = Outcome.no_match
      ∧ accumulate Category.lvalue sum_combinator 0 [1, 2, 3] () = Outcome.value (6, ())
      ∧ accumulate Category.lvalue sum_combinator 0 [] () = Outcome.value (0, ()) :=
  ⟨accumulate_of_temporary Category.prvalue sum_combinator 0 [1, 2, 3] () (by decide),
    accumulate_of_temporary Category.prvalue sum_combinator 0 [] () (by decide),
    (accumulate_eq_fold sum_combinator 0 [1, 2, 3] ()).trans (by decide),
    (accumulate_eq_fold sum_combinator 0 [] ()).trans (by decide)⟩

/-- C3: for every tuple `t` of length `N` and every visitor `f`, `for_each`
returns, and the arguments of the invocations of `f`, recorded in order, are
exactly the elements of `t` in ascending index order: `N` invocations, the
`k`-th on element `k`, none skipped or repeated.  For `N = 0` the visitor is
never invoked.  The whole effect is that of visiting the elements from left to
right. -/
theorem for_each_visits_in_order (f : α → σ → α × σ) (t : List α) (st : σ) (log : List α) :
    (∃ t' st', for_each f t st = Outcome.value (t', st')
        ∧ for_each (traced f) t (st, log) = Outcome.value (t', (st', log ++ t)))
      ∧ for_each (traced f) [] (st, log) = Outcome.value ([], (st, log))
      ∧ for_each f t st = Outcome.value (visit_in_order f t st) := by
  refine ⟨⟨(visit_in_order f t st).1, (visit_in_order f t st).2, ?_, ?_⟩, ?_, ?_⟩
  · exact for_each_eq_visit f t st
  · rw [for_each_eq_visit, visit_traced]
  · exact for_each_eq_visit (traced f) [] (st, log)
  · exact for_each_eq_visit f t st

/-- Scenario of C3: on the tuple `(1, "two", 3.0)` the visitor that appends
the string form to a log leaves the log `["1", "two", "3"]`. -/
theorem for_each_visits_in_order_witness :
    for_each log_visitor [Elem.int 1, Elem.str "two", Elem.dbl 30 1] []
      = Outcome.value ([Elem.int 1, Elem.str "two", Elem.dbl 30 1], ["1", "two", "3"]) :=
  (for_each_visits_in_order log_visitor [Elem.int 1, Elem.str "two", Elem.dbl 30 1] []
    []).2.2.trans (by decide)

/-- C4: for every index `I` and argument list `args` with `I < N`,
`argument<I>(args...)` returns the `I`-th argument: `getter<I>` discards
exactly the first `I` arguments and `getter<0>` returns the next one. -/
theorem argument_returns_selected (I : Nat) (args : List α) (h : I < args.length) :
    argument I args = Outcome.value (args.get ⟨I, h⟩)
      ∧ detail.getter I args = detail.getter 0 (args.drop I)
      ∧ (args.drop I).head? = some (args.get ⟨I, h⟩) := by
  refine ⟨argument_of_lt I args h, ?_, ?_⟩
  · have hd := detail.getter_drop I I args (Nat.le_refl I)
    rw [Nat.sub_self] at hd
    exact hd.symm
  · rw [List.drop_eq_getElem_cons h]
    rfl

/-- Instance of C4: `argument<1>(10, "x", 2.5)` is `"x"`. -/
theorem argument_returns_selected_witness :
    1 < [Elem.int 10, Elem.str "x", Elem.dbl 25 1].length
      ∧ argument 1 [Elem.int 10, Elem.str "x", Elem.dbl 25 1] = Outcome.value (Elem.str "x") :=
  ⟨by decide,
    (argument_returns_selected 1 [Elem.int 10, Elem.str "x", Elem.dbl 25 1] (by decide)).1⟩

/-- C5: for every non-empty list of facts `Ts`, `or_<Ts...>::value` exists and
is the right-associated disjunction `T1 || (T2 || (... || Tk))`; it is true
if and only if at least one fact is true; for a single fact it is that fact's
value. -/
theorem or_is_right_disjunction (Ts : List Bool) (h : Ts ≠ []) :
    or_ Ts = Outcome.value (Ts.dropLast.foldr (fun x y => x || y) (Ts.getLast h))
      ∧ (or_ Ts = Outcome.value true ↔ ∃ T ∈ Ts, T = true)
      ∧ (or_ Ts = Outcome.value false ↔ ∀ T ∈ Ts, T = false)
      ∧ (∀ T : Bool, or_ [T] = Outcome.value T) := by
  cases Ts with
  | nil => exact absurd rfl h
  | cons T Ts =>
    refine ⟨or_eq_foldr T Ts, ?_, ?_, fun T => rfl⟩
    · rw [or_eq_any T Ts]
      simp
    · rw [or_eq_any T Ts]
      simp

/-- Scenario of C5: `or_(false, false, true)` is true, `or_(false)` is false
and `or_(true)` is true. -/
theorem or_is_right_disjunction_witness :
    [false, false, true] ≠ []
      ∧ or_ [false, false, true] = Outcome.value true
      ∧ or_ [false] = Outcome.value false
      ∧ or_ [true] = Outcome.value true :=
  ⟨by decide,
    (or_is_right_disjunction [false, false, true] (by decide)).1.trans (by decide),
    (or_is_right_disjunction [false, false, true] (by decide)).2.2.2 false,
    (or_is_right_disjunction [false, false, true] (by decide)).2.2.2 true⟩

/-- C6: for every argument list `args`, the empty one included, and every
visitor `f`, `for_each_arg(f, args...)` has the same result and effect as
`for_each(f, tuple(args...))`, and the invocations of `f` made by the
initialisation of the bases of `invoker<0, ..., N-1>`, recorded in order, are
on `a0`, `a1`, ..., `a_{N-1}`, once each, as they are for `for_each`. -/
theorem for_each_arg_same_as_for_each (f : α → σ → α × σ) (args : List α) (st : σ)
    (log : List α) :
    for_each_arg f args st = for_each f args st
      ∧ (∃ args' st', for_each_arg f args st = Outcome.value (args', st')
          ∧ for_each_arg (traced f) args (st, log) = Outcome.value (args', (st', log ++ args))
          ∧ for_each (traced f) args (st, log) = Outcome.value (args', (st', log ++ args)))
      ∧ for_each_arg f [] st = Outcome.value ([], st) := by
  refine ⟨?_, ⟨(visit_in_order f args st).1, (visit_in_order f args st).2, ?_, ?_, ?_⟩, ?_⟩
  · rw [for_each_arg_eq_visit, for_each_eq_visit]
  · exact for_each_arg_eq_visit f args st
  · rw [for_each_arg_eq_visit, visit_traced]
  · rw [for_each_eq_visit, visit_traced]
  · exact for_each_arg_eq_visit f [] st

/-- Instance of C6: on the arguments `(1, "two", 3.0)` the logging visitor
leaves the log `["1", "two", "3"]` under `for_each_arg` as under `for_each`. -/
theorem for_each_arg_same_as_for_each_witness :
    for_each_arg log_visitor [Elem.int 1, Elem.str "two", Elem.dbl 30 1] []
        = for_each log_visitor [Elem.int 1, Elem.str "two", Elem.dbl 30 1] []
      ∧ for_each_arg log_visitor [Elem.int 1, Elem.str "two", Elem.dbl 30 1] []
        = Outcome.value ([Elem.int 1, Elem.str "two", Elem.dbl 30 1], ["1", "two", "3"]) :=
  ⟨(for_each_arg_same_as_for_each log_visitor
      [Elem.int 1, Elem.str "two", Elem.dbl 30 1] [] []).1, by decide⟩

/-- For a non-empty argument list `args`, an `init` and a combinator `f`,
`accumulate_arg(f, init, args...)` returns what `accumulate(f, init,
tuple(args...))` returns when `f` is passed to it as an lvalue, and its last
step is `f` applied to the accumulator of the arguments before the last one
and the last argument. -/
theorem accumulate_arg_same_as_accumulate_named (f : R → α → σ → R × σ) (init : R)
    (args : List α) (st : σ) (h : args ≠ []) :
    accumulate_arg f init args st = accumulate Category.lvalue f init args st
      ∧ (∃ acc, accumulate Category.lvalue f init args.dropLast st = Outcome.value acc
          ∧ accumulate_arg f init args st = Outcome.value (f acc.1 (args.getLast h) acc.2))
      ∧ accumulate_arg f init args st
          = Outcome.value (args.foldl (fun acc e => f acc.1 e acc.2) (init, st)) := by
  refine ⟨?_, ⟨fold_left f init args.dropLast st, ?_, ?_⟩, ?_⟩
  · rw [accumulate_arg_eq_fold f init args st h, accumulate_eq_fold]
  · exact accumulate_eq_fold f init args.dropLast st
  · rw [accumulate_arg_eq_fold f init args st h, fold_left_last f init args st h]
  · exact accumulate_arg_eq_fold f init args st h

/-- C7, at the input it fails on: with the combinator "sum" passed as a
temporary, `accumulate_arg(sum, 0, 1, 2, 3)` returns `6` and
`accumulate(sum, 0, (1, 2, 3))` is rejected, so the two do not return the same
result as the claim says; `accumulate_arg` forwards `f`, `accumulate` passes
the name `f` to an `F&&`.  With the combinator passed as an lvalue both
return `6`. -/
theorem accumulate_arg_and_accumulate_differ_on_temporary :
    accumulate_arg sum_combinator 0 [1, 2, 3] () = Outcome.value (6, ())
      ∧ accumulate Category.prvalue sum_combinator 0 [1, 2, 3] () = Outcome.no_match
      ∧ accumulate_arg sum_combinator 0 [1, 2, 3] ()
          ≠ accumulate Category.prvalue sum_combinator 0 [1, 2, 3] ()
      ∧ accumulate_arg sum_combinator 0 [1, 2, 3] ()
          = accumulate Category.lvalue sum_combinator 0 [1, 2, 3] () := by
  have harg : accumulate_arg sum_combinator 0 [1, 2, 3] () = Outcome.value (6, ()) :=
    (accumulate_arg_eq_fold sum_combinator 0 [1, 2, 3] () (by decide)).trans (by decide)
  have htmp : accumulate Category.prvalue sum_combinator 0 [1, 2, 3] () = Outcome.no_match :=
    accumulate_of_temporary Category.prvalue sum_combinator 0 [1, 2, 3] () (by decide)
  refine ⟨harg, htmp, ?_, ?_⟩
  · rw [harg, htmp]
    decide
  · rw [accumulate_arg_eq_fold sum_combinator 0 [1, 2, 3] () (by decide), accumulate_eq_fold]

/-- C8, at the input it fails on: `accumulate_arg(sum, 0)` with no arguments
does not return `init = 0`: the chain of bases of `accumulator<1, 0>` never
reaches `accumulator<N, N>` and the call is rejected.  The sibling folds and
visits accept the empty sequence: `accumulate(sum, 0, ())` returns `0` and
`for_each_arg(f)` returns without invoking `f`. -/
theorem accumulate_arg_rejects_empty_pack :
    accumulate_arg sum_combinator 0 [] () = Outcome.diverges
      ∧ (accumulate_arg sum_combinator 0 [] ()).isRejected = true
      ∧ accumulate_arg sum_combinator 0 [] () ≠ Outcome.value (0, ())
      ∧ accumulate Category.lvalue sum_combinator 0 [] () = Outcome.value (0, ())
      ∧ for_each_arg log_visitor [] [] = Outcome.value ([], []) := by
  rw [accumulate_arg_nil]
  exact ⟨rfl, rfl, by decide, (accumulate_eq_fold sum_combinator 0 [] ()).trans (by decide),
    by decide⟩

/-- C9: `argument<I>` over an argument list of length `N` is accepted if and
only if `I < N`.  For `I >= N` (so for every `I` when `N = 0`) it is rejected
by the `static_assert`.  For `I < N` every step `k` of the recursion from
`getter<I>` down to `getter<0>` still has an argument to drop or return, so
`getter` is never rejected for want of arguments and returns a value. -/
theorem argument_accepted_iff_in_range (I : Nat) (args : List α) :
    ((∃ a, argument I args = Outcome.value a) ↔ I < args.length)
      ∧ ((argument I args).isRejected = true ↔ args.length ≤ I)
      ∧ (args.length ≤ I → argument I args = Outcome.static_assert_failed)
      ∧ (I < args.length → ∀ k, k ≤ I →
          args.drop k ≠ [] ∧ detail.getter (I - k) (args.drop k) = detail.getter I args)
      ∧ (I < args.length →
          detail.getter I args ≠ Outcome.no_match ∧ ∃ a, detail.getter I args = Outcome.value a)
      ∧ (∀ J : Nat, argument J ([] : List α) = Outcome.static_assert_failed) := by
  refine ⟨⟨?_, ?_⟩, ⟨?_, ?_⟩, argument_of_le I args, ?_, ?_, ?_⟩
  · rintro ⟨a, ha⟩
    by_contra hlt
    rw [argument_of_le I args (Nat.not_lt.mp hlt)] at ha
    exact Outcome.noConfusion ha
  · intro h
    exact ⟨_, argument_of_lt I args h⟩
  · intro hr
    by_contra hle
    rw [argument_of_lt I args (Nat.lt_of_not_le hle)] at hr
    exact Bool.noConfusion hr
  · intro h
    rw [argument_of_le I args h]
    rfl
  · intro h k hk
    refine ⟨?_, detail.getter_drop I k args hk⟩
    intro hnil
    have hlen := congrArg List.length hnil
    simp at hlen
    omega
  · intro h
    rw [detail.getter_of_lt I args h]
    exact ⟨fun hc => Outcome.noConfusion hc, _, rfl⟩
  · intro J
    exact argument_of_le J [] (Nat.zero_le J)

/-- Instances of C9: `argument<2>` of three arguments is accepted,
`argument<3>` of three arguments and `argument<0>` of none are rejected by
the assertion. -/
theorem argument_accepted_iff_in_range_witness :
    ((2 < [Elem.int 10, Elem.str "x", Elem.dbl 25 1].length) ∧
        ∃ a, argument 2 [Elem.int 10, Elem.str "x", Elem.dbl 25 1] = Outcome.value a)
      ∧ ([Elem.int 10, Elem.str "x", Elem.dbl 25 1].length ≤ 3 ∧
        argument 3 [Elem.int 10, Elem.str "x", Elem.dbl 25 1] = Outcome.static_assert_failed)
      ∧ argument 0 ([] : List Elem) = Outcome.static_assert_failed :=
  ⟨⟨by decide, (argument_accepted_iff_in_range 2
      [Elem.int 10, Elem.str "x", Elem.dbl 25 1]).1.mpr (by decide)⟩,
    ⟨by decide, (argument_accepted_iff_in_range 3
      [Elem.int 10, Elem.str "x", Elem.dbl 25 1]).2.2.1 (by decide)⟩,
    (argument_accepted_iff_in_range 0 ([] : List Elem)).2.2.2.2.2 0⟩

/-- For a visitor passed as an lvalue, `apply` does not check its run-time
index.  The table built for `N` arguments has exactly `N` entries, the lookup
`arr[index]` is inside the table, and `apply` returns a value, if and only if
`index < N`; for `N >= 1` and every `index >= N` the result of `apply` is the
undefined one, not a value and not a rejection; for `N = 0` the table has no
element and the call is rejected. -/
theorem apply_named_index_unchecked (index : Nat) (func : α → σ → R × σ) (s : List α)
    (st : σ) :
    (detail.apply_table (List.range s.length) :
        List ((α → σ → R × σ) → List α → σ → Outcome (R × σ))).length = s.length
      ∧ (((detail.apply_table (List.range s.length) :
          List ((α → σ → R × σ) → List α → σ → Outcome (R × σ)))[index]?).isSome = true
          ↔ index < s.length)
      ∧ ((∃ r, apply Category.lvalue index func s st = Outcome.value r) ↔ index < s.length)
      ∧ (s ≠ [] → s.length ≤ index →
          apply Category.lvalue index func s st = Outcome.undefined)
      ∧ apply Category.lvalue index func ([] : List α) st = Outcome.ill_formed := by
  refine ⟨?_, ?_, ⟨?_, ?_⟩, apply_of_le index func s st, apply_nil _ index func st⟩
  · rw [detail.apply_table_length, List.length_range]
  · constructor
    · intro hs
      by_contra hlt
      rw [detail.apply_table_lookup_none _ _ (by simpa using hlt)] at hs
      exact Bool.noConfusion hs
    · intro h
      rw [detail.apply_table_range_lookup s.length index h]
      rfl
  · rintro ⟨r, hr⟩
    by_contra hlt
    cases s with
    | nil =>
      rw [apply_nil] at hr
      exact Outcome.noConfusion hr
    | cons e es =>
      rw [apply_of_le index func (e :: es) st (by simp) (Nat.not_lt.mp hlt)] at hr
      exact Outcome.noConfusion hr
  · intro h
    exact ⟨_, apply_of_lt index func s st h⟩

theorem fold_left_traced (f : R → α → σ → R × σ) :
    ∀ (t : List α) (init : R) (st : σ) (log : List (R × α)),
      fold_left (traced_combinator f) init t (st, log)
        = ((fold_left f init t st).1, ((fold_left f init t st).2,
            log ++ fold_calls f init t st))
  | [], _, _, _ => by simp [fold_left, fold_calls]
  | e :: es, init, st, log => by
    rw [fold_left_cons, fold_left_cons]
    simp [traced_combinator, fold_left_traced f es, fold_calls]

theorem fold_calls_length (f : R → α → σ → R × σ) :
    ∀ (t : List α) (init : R) (st : σ), (fold_calls f init t st).length = t.length
  | [], _, _ => rfl
  | e :: es, init, st => by simp [fold_calls, fold_calls_length f es]

theorem fold_calls_lookup (f : R → α → σ → R × σ) :
    ∀ (t : List α) (init : R) (st : σ) (k : Nat) (h : k < t.length),
      (fold_calls f init t st)[k]?
        = some ((fold_left f init (t.take k) st).1, t.get ⟨k, h⟩)
  | [], _, _, _, h => by simp at h
  | e :: es, init, st, 0, _ => by simp [fold_calls, fold_left]
  | e :: es, init, st, k + 1, h => by
    have h' : k < es.length := by simpa using h
    have ih := fold_calls_lookup f es (f init e st).1 (f init e st).2 k h'
    simpa [fold_calls, fold_left_cons] using ih

theorem fold_left_take_succ (f : R → α → σ → R × σ) (init : R) (t : List α) (st : σ)
    (k : Nat) (h : k < t.length) :
    fold_left f init (t.take (k + 1)) st
      = f (fold_left f init (t.take k) st).1 (t.get ⟨k, h⟩)
          (fold_left f init (t.take k) st).2 := by
  have hsplit : t.take (k + 1) = t.take k ++ [t.get ⟨k, h⟩] := by
    rw [List.take_succ, List.getElem?_eq_getElem h]
    rfl
  rw [hsplit, fold_left_append]
  rfl

theorem detail.accumulate_impl_drop (f : R → α → σ → R × σ) (I : Nat) (r : R) (t : List α)
    (st : σ) (h : I ≤ t.length) :
    detail.accumulate_impl I f r t st = Outcome.value (fold_left f r (t.drop I) st) := by
  have hlen : (t.take I).length = I := by simp [List.length_take, h]
  have happ := detail.accumulate_impl_append f (t.drop I) (t.take I) r st
  rw [hlen, List.take_append_drop] at happ
  exact happ

theorem visit_in_order_length (f : α → σ → α × σ) :
    ∀ (t : List α) (st : σ), (visit_in_order f t st).1.length = t.length
  | [], _ => rfl
  | e :: es, st => by simp [visit_in_order, visit_in_order_length f es]

theorem visit_in_order_lookup (f : α → σ → α × σ) :
    ∀ (t : List α) (st : σ) (k : Nat) (h : k < t.length),
      (visit_in_order f t st).1[k]?
        = some (f (t.get ⟨k, h⟩) (visit_in_order f (t.take k) st).2).1
  | [], _, _, h => by simp at h
  | e :: es, st, 0, _ => by simp [visit_in_order]
  | e :: es, st, k + 1, h => by
    have h' : k < es.length := by simpa using h
    have ih := visit_in_order_lookup f es (f e st).2 k h'
    simpa [visit_in_order] using ih

theorem visit_overwrite (g : α → α) (st : σ) :
    ∀ t : List α, visit_in_order (overwrite g) t st = (t.map g, st)
  | [] => rfl
  | e :: es => by simp [visit_in_order, overwrite, visit_overwrite g st es]

theorem zip_range_lookup (s : List α) (index : Nat) (h : index < s.length) :
    ∃ h' : index < ((List.range s.length).zip s).length,
      ((List.range s.length).zip s).get ⟨index, h'⟩ = (index, s.get ⟨index, h⟩) := by
  refine ⟨by simpa using h, ?_⟩
  simp

/-- For a tuple `t` of length `N` and a combinator `f` with side effects passed
as an lvalue, `accumulate` returns, and the invocations of `f`, recorded in
order, are exactly `N`: the `k`-th receives the accumulator produced by the
invocations before it (`init` for `k = 0`) together with element `k`, and
produces the accumulator the next one receives.  For `N = 0` the combinator
is not invoked. -/
theorem accumulate_named_invokes_in_order (f : R → α → σ → R × σ) (init : R)
    (t : List α) (st : σ) (log : List (R × α)) :
    (∃ res, accumulate Category.lvalue f init t st = Outcome.value res
        ∧ accumulate Category.lvalue (traced_combinator f) init t (st, log)
            = Outcome.value (res.1, (res.2, log ++ fold_calls f init t st)))
      ∧ (fold_calls f init t st).length = t.length
      ∧ (∀ (k : Nat) (h : k < t.length), ∃ acc,
          accumulate Category.lvalue f init (t.take k) st = Outcome.value acc
            ∧ (fold_calls f init t st)[k]? = some (acc.1, t.get ⟨k, h⟩)
            ∧ accumulate Category.lvalue f init (t.take (k + 1)) st
                = Outcome.value (f acc.1 (t.get ⟨k, h⟩) acc.2))
      ∧ accumulate Category.lvalue f init (t.take 0) st = Outcome.value (init, st)
      ∧ accumulate Category.lvalue (traced_combinator f) init [] (st, log)
          = Outcome.value (init, (st, log)) := by
  refine ⟨⟨fold_left f init t st, accumulate_eq_fold f init t st, ?_⟩,
    fold_calls_length f t init st, ?_, ?_, ?_⟩
  · rw [accumulate_eq_fold, fold_left_traced]
  · intro k h
    refine ⟨fold_left f init (t.take k) st, accumulate_eq_fold f init (t.take k) st,
      fold_calls_lookup f t init st k h, ?_⟩
    rw [accumulate_eq_fold, fold_left_take_succ f init t st k h]
  · exact accumulate_eq_fold f init (t.take 0) st
  · exact accumulate_eq_fold (traced_combinator f) init [] (st, log)

/-- C11, at the input it fails on: with the recording combinator "sum" passed
as a temporary, `accumulate(sum, 0, (1, 2, 3))` is rejected and the combinator
is not invoked at all; the claim gives three invocations.  Passed as an
lvalue it is invoked on `(0, 1)`, `(1, 2)` and `(3, 3)`, in this order. -/
theorem accumulate_temporary_combinator_never_invoked :
    accumulate Category.prvalue (traced_combinator sum_combinator) 0 [1, 2, 3] ((), [])
        = Outcome.no_match
      ∧ accumulate Category.lvalue (traced_combinator sum_combinator) 0 [1, 2, 3] ((), [])
        = Outcome.value (6, ((), [(0, 1), (1, 2), (3, 3)])) :=
  ⟨accumulate_of_temporary Category.prvalue (traced_combinator sum_combinator) 0 [1, 2, 3]
      ((), []) (by decide),
    (accumulate_eq_fold (traced_combinator sum_combinator) 0 [1, 2, 3] ((), [])).trans
      (by decide)⟩

/-- C12: `for_each` hands each element to the visitor as an alias of the
tuple's own slot.  For every visitor `f` the tuple keeps its length and slot
`k` holds what `f` left in it when invoked on the original `e_k`, after the
visits of the slots before it.  For the visitor that overwrites `x` with
`g(x)` the tuple becomes `(g(e0), ..., g(e_{N-1}))`, each invocation having
received the original value of its own slot, once. -/
theorem for_each_updates_each_slot (f : α → σ → α × σ) (g : α → α) (t : List α) (st : σ)
    (log : List α) :
    for_each (overwrite g) t st = Outcome.value (t.map g, st)
      ∧ for_each (traced (overwrite g)) t (st, log) = Outcome.value (t.map g, (st, log ++ t))
      ∧ (∃ t' st', for_each f t st = Outcome.value (t', st')
          ∧ t'.length = t.length
          ∧ ∀ (k : Nat) (h : k < t.length), ∃ before st_k,
              for_each f (t.take k) st = Outcome.value (before, st_k)
                ∧ t'[k]? = some (f (t.get ⟨k, h⟩) st_k).1) := by
  refine ⟨?_, ?_, ⟨(visit_in_order f t st).1, (visit_in_order f t st).2,
    for_each_eq_visit f t st, visit_in_order_length f t st, ?_⟩⟩
  · rw [for_each_eq_visit, visit_overwrite]
  · rw [for_each_eq_visit, visit_traced, visit_overwrite]
  · intro k h
    exact ⟨(visit_in_order f (t.take k) st).1, (visit_in_order f (t.take k) st).2,
      for_each_eq_visit f (t.take k) st, visit_in_order_lookup f t st k h⟩

/-- Instance of C12: doubling every element of `(1, 2, 3)` in place leaves
`(2, 4, 6)`. -/
theorem for_each_updates_each_slot_witness :
    for_each (overwrite fun x : Int => 2 * x) [1, 2, 3] () = Outcome.value ([2, 4, 6], ()) :=
  (for_each_updates_each_slot (overwrite fun x : Int => 2 * x) (fun x : Int => 2 * x)
    [1, 2, 3] () []).1.trans (by decide)

/-- For an argument list of length `N >= 1`, an `index < N` and a visitor with
side effects passed as an lvalue, `apply` invokes the visitor exactly once, on
the element at position `index`: the record of the invocations gains that one
entry, and when the arguments carry their positions the recorded position is
`index`. -/
theorem apply_named_invokes_visitor_once (index : Nat) (func : α → σ → R × σ) (s : List α)
    (st : σ) (log : List α) (plog : List (Nat × α)) (h : index < s.length) :
    apply Category.lvalue index (traced_visitor func) s (st, log)
        = Outcome.value ((func (s.get ⟨index, h⟩) st).1,
            ((func (s.get ⟨index, h⟩) st).2, log ++ [s.get ⟨index, h⟩]))
      ∧ apply Category.lvalue index (traced_visitor fun (p : Nat × α) => func p.2)
          ((List.range s.length).zip s) (st, plog)
        = Outcome.value ((func (s.get ⟨index, h⟩) st).1,
            ((func (s.get ⟨index, h⟩) st).2, plog ++ [(index, s.get ⟨index, h⟩)]))
      ∧ 1 ≤ s.length := by
  refine ⟨?_, ?_, by omega⟩
  · rw [apply_of_lt index (traced_visitor func) s (st, log) h]
    rfl
  · obtain ⟨h', hget⟩ := zip_range_lookup s index h
    rw [apply_of_lt index _ _ (st, plog) h', hget]
    rfl

/-- C15, at the input it fails on: with the recording visitor `stringify`
passed as a temporary, `apply(1, stringify, 10, "x", 2.5)` is rejected and the
visitor is not invoked; the claim gives one invocation, on `"x"`.  Passed as
an lvalue it is invoked once, on `"x"`. -/
theorem apply_temporary_visitor_never_invoked :
    apply Category.prvalue 1 (traced_visitor stringify_visitor) [Elem.int 10, Elem.str "x", Elem.dbl 25 1] ((), [])
        = Outcome.no_match
      ∧ apply Category.lvalue 1 (traced_visitor stringify_visitor) [Elem.int 10, Elem.str "x", Elem.dbl 25 1] ((), [])
        = Outcome.value ("x", ((), [Elem.str "x"])) :=
  ⟨apply_of_temporary Category.prvalue 1 (traced_visitor stringify_visitor) _ ((), [])
      (by decide) (by decide),
    (apply_of_lt 1 (traced_visitor stringify_visitor) [Elem.int 10, Elem.str "x", Elem.dbl 25 1] ((), []) (by decide)).trans
      (by decide)⟩

/-- C16: `accumulate` splits over concatenation.  For every combinator `f`,
every `init` and every two tuples `s` and `t`, the fold `accumulate_impl<0>` of
`s ++ t` is the fold of `t` started from the result of the fold of `s`, the
side effects of `f` included; `accumulate(f, init, s ++ t)` is
`accumulate(f, accumulate(f, init, s), t)` however `f` is passed; and
`accumulate_impl<I>` started at position `I <= N` with accumulator `r` returns
the left fold of `f` over the elements `I..N-1` starting from `r`. -/
theorem accumulate_splits_over_append (fcat : Category) (f : R → α → σ → R × σ) (init : R)
    (s t : List α) (st : σ) :
    (∃ mid, detail.accumulate_impl 0 f init s st = Outcome.value mid
        ∧ detail.accumulate_impl 0 f init (s ++ t) st
            = detail.accumulate_impl 0 f mid.1 t mid.2)
      ∧ accumulate fcat f init (s ++ t) st
          = (accumulate fcat f init s st).bind (fun mid => accumulate fcat f mid.1 t mid.2)
      ∧ (∀ g : R → α → R, ∃ m,
          detail.accumulate_impl 0 (pure_combinator g) init s st = Outcome.value (m, st)
            ∧ detail.accumulate_impl 0 (pure_combinator g) init (s ++ t) st
                = detail.accumulate_impl 0 (pure_combinator g) m t st)
      ∧ (∀ (I : Nat) (r : R), I ≤ t.length →
          detail.accumulate_impl I f r t st
            = Outcome.value ((t.drop I).foldl (fun acc e => f acc.1 e acc.2) (r, st))) := by
  refine ⟨⟨fold_left f init s st, detail.accumulate_impl_eq_fold f init s st, ?_⟩, ?_, ?_, ?_⟩
  · rw [detail.accumulate_impl_eq_fold, detail.accumulate_impl_eq_fold, fold_left_append]
  · cases fcat with
    | lvalue =>
      rw [accumulate_eq_fold, accumulate_eq_fold, fold_left_append]
      simp only [Outcome.bind]
      rw [accumulate_eq_fold]
    | xvalue =>
      rw [accumulate_of_temporary Category.xvalue f init (s ++ t) st (by decide),
        accumulate_of_temporary Category.xvalue f init s st (by decide)]
      rfl
    | prvalue =>
      rw [accumulate_of_temporary Category.prvalue f init (s ++ t) st (by decide),
        accumulate_of_temporary Category.prvalue f init s st (by decide)]
      rfl
  · intro g
    refine ⟨s.foldl g init, ?_, ?_⟩
    · rw [detail.accumulate_impl_eq_fold, fold_left_pure]
    · rw [detail.accumulate_impl_eq_fold, detail.accumulate_impl_eq_fold, fold_left_append,
        fold_left_pure g st s]
  · intro I r h
    exact detail.accumulate_impl_drop f I r t st h

/-- Instance of C16: `accumulate_impl<1>` on `(1, 2, 3)` from the accumulator
`10` gives `15`, and folding `(1) ++ (2, 3)` is folding `(2, 3)` from the fold
of `(1)`. -/
theorem accumulate_splits_over_append_witness :
    (1 ≤ [(1 : Int), 2, 3].length
      ∧ detail.accumulate_impl 1 sum_combinator 10 [1, 2, 3] () = Outcome.value (15, ()))
    ∧ ∃ mid, detail.accumulate_impl 0 sum_combinator 0 [1] () = Outcome.value mid
        ∧ detail.accumulate_impl 0 sum_combinator 0 ([1] ++ [2, 3]) ()
            = detail.accumulate_impl 0 sum_combinator mid.1 [2, 3] mid.2 :=
  ⟨⟨by decide, ((accumulate_splits_over_append Category.lvalue sum_combinator 0 []
      [1, 2, 3] ()).2.2.2 1 10 (by decide)).trans (by decide)⟩,
    (accumulate_splits_over_append Category.lvalue sum_combinator 0 [1] [2, 3] ()).1⟩

/-! ### Depth of the recursions -/

namespace detail

theorem for_each_impl_base (f : α → σ → α × σ) (I : Nat) (t : List α) (st : σ)
    (h : I = t.length) : for_each_impl I f t st = Outcome.value (t, st) := by
  rw [for_each_impl]
  simp [h]

theorem for_each_impl_step (f : α → σ → α × σ) (I : Nat) (t : List α) (st : σ)
    (h : I < t.length) :
    for_each_impl I f t st
      = for_each_impl (I + 1) f (t.set I (f (t.get ⟨I, h⟩) st).1) (f (t.get ⟨I, h⟩) st).2 := by
  rw [for_each_impl]
  have hne : ¬ I = t.length := by omega
  simp only [hne, if_false, h, dite_true]

theorem for_each_impl_within_eq (f : α → σ → α × σ) :
    ∀ (depth I : Nat) (t : List α) (st : σ), I ≤ t.length →
      for_each_impl_within f depth I t st
        = if t.length - I ≤ depth then some (for_each_impl I f t st) else none
  | 0, I, t, st, hI => by
    by_cases h : I = t.length
    · have hle : t.length - I ≤ 0 := by omega
      simp only [for_each_impl_within, h, if_true, for_each_impl_base f _ t st rfl]
      simp
    · have hlt : I < t.length := by omega
      have hnle : ¬ t.length - I ≤ 0 := by omega
      simp only [for_each_impl_within, h, if_false, hlt, if_true, hnle]
  | depth + 1, I, t, st, hI => by
    by_cases h : I = t.length
    · have hle : t.length - I ≤ depth + 1 := by omega
      simp only [for_each_impl_within, h, if_true, for_each_impl_base f _ t st rfl]
      simp
    · have hlt : I < t.length := by omega
      have ih := for_each_impl_within_eq f depth (I + 1)
        (t.set I (f (t.get ⟨I, hlt⟩) st).1) (f (t.get ⟨I, hlt⟩) st).2
        (by simp only [List.length_set]; omega)
      simp only [for_each_impl_within, h, if_false, hlt, dite_true]
      rw [ih, for_each_impl_step f I t st hlt]
      simp only [List.length_set]
      by_cases hd : t.length - I ≤ depth + 1
      · have hd' : t.length - (I + 1) ≤ depth := by omega
        simp only [hd, hd', if_true]
      · have hd' : ¬ t.length - (I + 1) ≤ depth := by omega
        simp only [hd, hd', if_false]

theorem accumulate_impl_base (f : R → α → σ → R × σ) (I : Nat) (init : R) (t : List α)
    (st : σ) (h : I = t.length) :
    accumulate_impl I f init t st = Outcome.value (init, st) := by
  rw [accumulate_impl]
  simp [h]

theorem accumulate_impl_step (f : R → α → σ → R × σ) (I : Nat) (init : R) (t : List α)
    (st : σ) (h : I < t.length) :
    accumulate_impl I f init t st
      = accumulate_impl (I + 1) f (f init (t.get ⟨I, h⟩) st).1 t
          (f init (t.get ⟨I, h⟩) st).2 := by
  rw [accumulate_impl]
  have hne : ¬ I = t.length := by omega
  simp only [hne, if_false, h, dite_true]

theorem accumulate_impl_within_eq (f : R → α → σ → R × σ) (t : List α) :
    ∀ (depth I : Nat) (init : R) (st : σ), I ≤ t.length →
      accumulate_impl_within f t depth I init st
        = if t.length - I ≤ depth then some (accumulate_impl I f init t st) else none
  | 0, I, init, st, hI => by
    by_cases h : I = t.length
    · simp only [accumulate_impl_within, h, if_true, accumulate_impl_base f _ init t st rfl]
      simp
    · have hlt : I < t.length := by omega
      have hnle : ¬ t.length - I ≤ 0 := by omega
      simp only [accumulate_impl_within, h, if_false, hlt, if_true, hnle]
  | depth + 1, I, init, st, hI => by
    by_cases h : I = t.length
    · simp only [accumulate_impl_within, h, if_true, accumulate_impl_base f _ init t st rfl]
      simp
    · have hlt : I < t.length := by omega
      have ih := accumulate_impl_within_eq f t depth (I + 1)
        (f init (t.get ⟨I, hlt⟩) st).1 (f init (t.get ⟨I, hlt⟩) st).2 (by omega)
      simp only [accumulate_impl_within, h, if_false, hlt, dite_true]
      rw [ih, accumulate_impl_step f I init t st hlt]
      by_cases hd : t.length - I ≤ depth + 1
      · have hd' : t.length - (I + 1) ≤ depth := by omega
        simp only [hd, hd', if_true]
      · have hd' : ¬ t.length - (I + 1) ≤ depth := by omega
        simp only [hd, hd', if_false]

theorem getter_within_eq : ∀ (depth I : Nat) (args : List α), I < args.length →
    getter_within depth I args = if I ≤ depth then some (getter I args) else none
  | _, _, [], h => by simp at h
  | 0, 0, _ :: _, _ => by simp [getter_within, getter]
  | _ + 1, 0, _ :: _, _ => by simp [getter_within, getter]
  | 0, I + 1, _ :: _, _ => by simp [getter_within]
  | depth + 1, I + 1, _ :: args, h => by
    have h' : I < args.length := by simpa using h
    simp only [getter_within, getter, getter_within_eq depth I args h',
      Nat.add_le_add_iff_right]

theorem accumulator_apply_last (N : Nat) (f : R → α → σ → R × σ) (r : R) (t : α) (st : σ) :
    accumulator.apply N N f r [t] st = Outcome.value (f r t st) := by
  rw [accumulator.apply]
  simp

theorem accumulator_apply_step (I N : Nat) (f : R → α → σ → R × σ) (r : R) (t : α)
    (rest : List α) (st : σ) (h : I < N) :
    accumulator.apply I N f r (t :: rest) st
      = accumulator.apply (I + 1) N f (f r t st).1 rest (f r t st).2 := by
  conv_lhs => unfold accumulator.apply
  have hne : ¬ I = N := by omega
  simp only [hne, if_false, h, if_true]

theorem accumulator_apply_within_eq (N : Nat) (f : R → α → σ → R × σ) :
    ∀ (depth : Nat) (rest : List α) (t : α) (I : Nat) (r : R) (st : σ),
      I + rest.length = N →
      accumulator.apply_within N f depth I r (t :: rest) st
        = if N - I ≤ depth then some (accumulator.apply I N f r (t :: rest) st) else none
  | 0, [], t, I, r, st, h => by
    have hI : I = N := by simpa using h
    subst hI
    simp [accumulator.apply_within, accumulator_apply_last]
  | depth + 1, [], t, I, r, st, h => by
    have hI : I = N := by simpa using h
    subst hI
    simp [accumulator.apply_within, accumulator_apply_last]
  | 0, u :: rest, t, I, r, st, h => by
    have hne : ¬ I = N := by simp at h; omega
    have hlt : I < N := by simp at h; omega
    have hnle : ¬ N - I ≤ 0 := by omega
    simp only [accumulator.apply_within, hne, if_false, hlt, if_true, hnle]
  | depth + 1, u :: rest, t, I, r, st, h => by
    have hne : ¬ I = N := by simp at h; omega
    have hlt : I < N := by simp at h; omega
    have ih := accumulator_apply_within_eq N f depth rest u (I + 1) (f r t st).1 (f r t st).2
      (by simp at h; omega)
    simp only [accumulator.apply_within, hne, if_false, hlt, if_true]
    rw [ih, accumulator_apply_step I N f r t (u :: rest) st hlt]
    by_cases hd : N - I ≤ depth + 1
    · have hd' : N - (I + 1) ≤ depth := by omega
      simp only [hd, hd', if_true]
    · have hd' : ¬ N - (I + 1) ≤ depth := by omega
      simp only [hd, hd', if_false]

end detail

/-- C14: the recursions are total and of the stated depth.  For every tuple of
length `N`, `for_each_impl<0>` and `accumulate_impl<0>` return a value and
need exactly `N` nested calls to reach their `I == N` base case (a bound of
`depth` calls suffices if and only if `N <= depth`); for every `I < N`,
`getter<I>` returns a value and needs exactly `I` nested calls to reach
`getter<0>`; and for every `N >= 1`, `accumulator<1, N>::apply` returns a value
and needs exactly `N - 1` nested calls to reach `accumulator<N, N>`. -/
theorem recursions_reach_base_case (fv : α → σ → α × σ) (fc : R → α → σ → R × σ) (init : R)
    (t : List α) (st : σ) (depth : Nat) :
    (detail.for_each_impl_within fv depth 0 t st
        = if t.length ≤ depth then some (for_each fv t st) else none)
      ∧ (for_each fv t st).isValue = true
      ∧ (detail.accumulate_impl_within fc t depth 0 init st
        = if t.length ≤ depth then some (detail.accumulate_impl 0 fc init t st) else none)
      ∧ (detail.accumulate_impl 0 fc init t st).isValue = true
      ∧ (∀ I : Nat, I < t.length →
          detail.getter_within depth I t
              = (if I ≤ depth then some (detail.getter I t) else none)
            ∧ (detail.getter I t).isValue = true
            ∧ (argument I t).isValue = true)
      ∧ (1 ≤ t.length →
          detail.accumulator.apply_within t.length fc depth 1 init t st
              = (if t.length - 1 ≤ depth then some (accumulate_arg fc init t st) else none)
            ∧ (accumulate_arg fc init t st).isValue = true) := by
  refine ⟨?_, ?_, ?_, ?_, ?_, ?_⟩
  · simpa [for_each] using detail.for_each_impl_within_eq fv depth 0 t st (Nat.zero_le _)
  · rw [for_each_eq_visit]
    rfl
  · simpa using detail.accumulate_impl_within_eq fc t depth 0 init st (Nat.zero_le _)
  · rw [detail.accumulate_impl_eq_fold]
    rfl
  · intro I hI
    refine ⟨detail.getter_within_eq depth I t hI, ?_, ?_⟩
    · rw [detail.getter_of_lt I t hI]
      rfl
    · rw [argument_of_lt I t hI]
      rfl
  · intro hpos
    cases t with
    | nil => simp at hpos
    | cons e es =>
      refine ⟨?_, ?_⟩
      · exact detail.accumulator_apply_within_eq (e :: es).length fc depth es e 1 init st
          (by simp; omega)
      · rw [accumulate_arg_eq_fold fc init (e :: es) st (by simp)]
        rfl

/-- Instance of C14: on three elements `for_each_impl<0>` does not reach its
base case within two nested calls and does within three; `getter<2>` needs
two; `accumulator<1, 3>` needs two. -/
theorem recursions_reach_base_case_witness :
    (detail.for_each_impl_within (overwrite fun x : Int => 2 * x) 2 0 [1, 2, 3] () = none
      ∧ detail.for_each_impl_within (overwrite fun x : Int => 2 * x) 3 0 [1, 2, 3] ()
        = some (Outcome.value ([2, 4, 6], ())))
    ∧ (2 < [(1 : Int), 2, 3].length
      ∧ detail.getter_within 2 2 [(1 : Int), 2, 3] = some (detail.getter 2 [(1 : Int), 2, 3])
      ∧ detail.getter_within 1 2 [(1 : Int), 2, 3] = none)
    ∧ (1 ≤ [(1 : Int), 2, 3].length
      ∧ detail.accumulator.apply_within 3 sum_combinator 2 1 0 [1, 2, 3] ()
        = some (accumulate_arg sum_combinator 0 [1, 2, 3] ())
      ∧ detail.accumulator.apply_within 3 sum_combinator 1 1 0 [1, 2, 3] () = none) := by
  refine ⟨⟨by decide, by decide⟩, ⟨by decide, ?_, by decide⟩, ⟨by decide, ?_, by decide⟩⟩
  · exact ((recursions_reach_base_case (overwrite fun x : Int => 2 * x) sum_combinator 0
      [(1 : Int), 2, 3] () 2).2.2.2.2.1 2 (by decide)).1
  · exact ((recursions_reach_base_case (overwrite fun x : Int => 2 * x) sum_combinator 0
      [(1 : Int), 2, 3] () 2).2.2.2.2.2 (by decide)).1

/-! ### Value category of `argument` -/

/-- The category under which a forwarded argument arrives: an lvalue stays an
lvalue, a temporary becomes an xvalue. -/
theorem forwarded_eq (a : Operand) :
    forwarded a
      = ⟨if a.category = Category.lvalue then Category.lvalue else Category.xvalue,
          a.object, a.copies⟩ := by
  cases a with
  | mk c o n => cases c <;> rfl

theorem forwarded_forwarded (a : Operand) : forwarded (forwarded a) = forwarded a := by
  cases a with
  | mk c o n => cases c <;> rfl

theorem return_forwarded (a : Operand) :
    return_as (decltype_auto (forwarded a).category) (forwarded a) = forwarded a := by
  cases a with
  | mk c o n => cases c <;> rfl

theorem return_collapse_forwarded (a : Operand) :
    return_as (collapse (deduce a.category)) (forwarded a) = forwarded a := by
  cases a with
  | mk c o n => cases c <;> rfl

theorem detail.getter_ref_of_lt : ∀ (I : Nat) (args : List Operand) (h : I < args.length),
    detail.getter_ref I args = Outcome.value (forwarded (args.get ⟨I, h⟩))
  | 0, a :: _, _ => by
    simp only [detail.getter_ref, return_collapse_forwarded]
    rfl
  | I + 1, _ :: args, h => by
    have h' : I < (args.map forwarded).length := by simpa using h
    simp only [detail.getter_ref, detail.getter_ref_of_lt I (args.map forwarded) h',
      Outcome.map]
    simp [forwarded_forwarded, return_forwarded]

theorem argument_ref_of_lt (I : Nat) (args : List Operand) (h : I < args.length) :
    argument_ref I args = Outcome.value (forwarded (args.get ⟨I, h⟩)) := by
  have h' : I < (args.map forwarded).length := by simpa using h
  simp only [argument_ref, h, if_true, detail.getter_ref_of_lt I (args.map forwarded) h',
    Outcome.map]
  simp [forwarded_forwarded, return_forwarded]

/-- C13: `argument<I>` preserves the value category of the selected argument
for every `I < N`.  When the `I`-th argument is a temporary the result is an
rvalue (xvalue) designating that same temporary, when it is an lvalue the
result is an lvalue designating that same object; in both cases no copy or
move construction takes place. -/
theorem argument_preserves_value_category (I : Nat) (args : List Operand)
    (h : I < args.length) :
    (∃ e, argument_ref I args = Outcome.value e
        ∧ e.object = (args.get ⟨I, h⟩).object
        ∧ e.copies = (args.get ⟨I, h⟩).copies
        ∧ ((args.get ⟨I, h⟩).category = Category.lvalue → e.category = Category.lvalue)
        ∧ ((args.get ⟨I, h⟩).category ≠ Category.lvalue → e.category = Category.xvalue))
      ∧ (∃ e, detail.getter_ref I args = Outcome.value e
        ∧ e.object = (args.get ⟨I, h⟩).object
        ∧ e.copies = (args.get ⟨I, h⟩).copies) := by
  refine ⟨⟨forwarded (args.get ⟨I, h⟩), argument_ref_of_lt I args h, ?_, ?_, ?_, ?_⟩,
    ⟨forwarded (args.get ⟨I, h⟩), detail.getter_ref_of_lt I args h, ?_, ?_⟩⟩
  · rw [forwarded_eq]
  · rw [forwarded_eq]
  · intro hc
    rw [forwarded_eq]
    exact if_pos hc
  · intro hc
    rw [forwarded_eq]
    exact if_neg hc
  · rw [forwarded_eq]
  · rw [forwarded_eq]

/-- Instance of C13: of the arguments (an lvalue, a temporary, the result of a
move), `argument<1>` is an xvalue for the temporary itself and `argument<0>` an
lvalue for the first object itself. -/
theorem argument_preserves_value_category_witness :
    (1 < [Operand.mk Category.lvalue 100 0, Operand.mk Category.prvalue 101 0,
        Operand.mk Category.xvalue 102 0].length
      ∧ argument_ref 1 [Operand.mk Category.lvalue 100 0, Operand.mk Category.prvalue 101 0,
          Operand.mk Category.xvalue 102 0]
        = Outcome.value (Operand.mk Category.xvalue 101 0))
    ∧ argument_ref 0 [Operand.mk Category.lvalue 100 0, Operand.mk Category.prvalue 101 0,
          Operand.mk Category.xvalue 102 0]
        = Outcome.value (Operand.mk Category.lvalue 100 0) := by
  refine ⟨⟨by decide, ?_⟩, by decide⟩
  obtain ⟨⟨e, he, ho, hn, _, hx⟩, _⟩ := argument_preserves_value_category 1
    [Operand.mk Category.lvalue 100 0, Operand.mk Category.prvalue 101 0,
      Operand.mk Category.xvalue 102 0] (by decide)
  have hcat := hx (by decide)
  rw [he]
  cases e with
  | mk c o n =>
    change o = 101 at ho
    change n = 0 at hn
    change c = Category.xvalue at hcat
    rw [ho, hn, hcat]

end qs
